import Mathlib

/-!
# Verification of the chunked-transcription engine of `batch_transcribe.py`

This file is a shallow embedding, in Lean 4, of the core of the
`joselrodrigues/audiototext` repository: the chunked audio transcription
engine in `src/batch_transcribe.py` (functions `transcribe_chunks`,
`transcribe_chunk_with_requests`, `chunk_audio`, `secure_path_join`,
`sanitize_filename`), together with proofs about it.

Modelling conventions:

* The remote transcription endpoint is modelled by a per-chunk
  `NetOutcome` value: either an HTTP response (status, parsed JSON body or
  `none` when the body is not valid JSON, raw body text) or a transport
  error (`requests` exception: timeout, connection failure).
* The only file `transcribe_chunks` touches is its partial-checkpoint
  file; the disk is modelled as `Option Checkpoint`.  A checkpoint value
  records the progress marker `done/total` written in the header line and
  the space-joined body text.
* Python's `set(detected_languages)` enumerates the distinct detected
  languages in an unspecified, hash-dependent order.  The enumeration is
  modelled by an oracle `setOrder : List String → List String`; a valid
  oracle returns some permutation of the distinct elements
  (`IsSetOrder`).
* Machine integers do not occur: all quantities are `Nat` (millisecond
  durations, chunk indices, HTTP status codes).
* The credential-redaction regex applied to error bodies is not modelled
  (no claim concerns the error text); the error message keeps the status
  code and the truncated body.
-/

namespace BatchTranscribe

/-- Result of one successful per-chunk transcription call:
`{'text': ..., 'language': ...}` in `transcribe_chunk_with_requests`. -/
structure TranscriptionResult where
  text : String
  language : String
deriving DecidableEq

/-- Parsed JSON body of a 200 response: either a JSON object (with
optional `text` and `language` fields) or some other JSON value, which
the code stringifies. -/
inductive JsonBody where
  | dict (text? : Option String) (language? : Option String)
  | other (s : String)
deriving DecidableEq

/-- One chunk's interaction with the transcription endpoint, as seen by
`transcribe_chunk_with_requests`: an HTTP response (with `json?` set to
`none` when the body fails to parse as JSON) or a raised transport
error (timeout / connection failure from `requests.post`). -/
inductive NetOutcome where
  | resp (status : Nat) (json? : Option JsonBody) (rawText : String)
  | netError (msg : String)
deriving DecidableEq

/-- Model of `transcribe_chunk_with_requests` (src/batch_transcribe.py:250-278).
A 200 response with unparseable JSON returns the fallback
`{"text": "", "language": "unknown"}`; a 200 JSON object returns its
`text`/`language` fields with the same defaults; any other 2xx-less
status raises (`Except.error`), as does a transport error. -/
def transcribe_chunk_with_requests : NetOutcome → Except String TranscriptionResult
  | .netError msg => .error msg
  | .resp status json? rawText =>
    if status = 200 then
      match json? with
      | none => .ok ⟨"", "unknown"⟩
      | some (.dict text? language?) => .ok ⟨text?.getD "", language?.getD "unknown"⟩
      | some (.other s) => .ok ⟨s, "unknown"⟩
    else
      .error ("API error " ++ toString status ++ ": " ++ rawText.take 200)

/-- The partial-checkpoint file content: progress marker `done/total`
from the header line `# Transcription (Partial - done/total chunks)` and
the space-joined transcription body that follows it. -/
structure Checkpoint where
  done : Nat
  total : Nat
  body : String
deriving DecidableEq

/-- State threaded through the `for i, chunk_file in enumerate(...)` loop
of `transcribe_chunks`: the in-memory `transcriptions` and
`detected_languages` lists, the partial-checkpoint file on disk, and
instrumentation counters (number of service calls made, number of
checkpoint writes performed). -/
structure ChunkState where
  transcriptions : List String
  detected : List String
  disk : Option Checkpoint
  calls : Nat
  writes : Nat
deriving DecidableEq

/-- The constant `save_frequency = 10` (src/batch_transcribe.py:288). -/
def saveFrequency : Nat := 10

/-- The loop body of `transcribe_chunks` (src/batch_transcribe.py:290-310),
iterating over the remaining chunks with `i` the index of the next chunk
and `N` the total number of chunks.  On per-chunk success the text is
appended, a non-`"unknown"` language is recorded, and a periodic
checkpoint is written when `(i+1) % save_frequency == 0` or `i+1 == N`.
On per-chunk failure a checkpoint is written if and only if at least one
text has been accumulated (`if transcriptions:`), and the exception
propagates (`raise`) carrying the final state. -/
def runChunks (N : Nat) : List NetOutcome → Nat → ChunkState → Except ChunkState ChunkState
  | [], _, st => .ok st
  | c :: rest, i, st =>
    let st0 := { st with calls := st.calls + 1 }
    match transcribe_chunk_with_requests c with
    | .ok r =>
      let ts := st0.transcriptions ++ [r.text]
      let ds := if r.language ≠ "unknown" then st0.detected ++ [r.language] else st0.detected
      let st1 : ChunkState :=
        if (i + 1) % saveFrequency = 0 ∨ i + 1 = N then
          { transcriptions := ts, detected := ds,
            disk := some ⟨i + 1, N, String.intercalate " " ts⟩,
            calls := st0.calls, writes := st0.writes + 1 }
        else
          { transcriptions := ts, detected := ds, disk := st0.disk,
            calls := st0.calls, writes := st0.writes }
      runChunks N rest (i + 1) st1
    | .error _ =>
      let st1 : ChunkState :=
        if st0.transcriptions ≠ [] then
          { st0 with
            disk := some ⟨i, N, String.intercalate " " st0.transcriptions⟩,
            writes := st0.writes + 1 }
        else
          st0
      .error st1

/-- Python's `max(iterable, key=k)` over a nonempty list given as head
and tail: scans left to right keeping the first element whose key is
strictly greater than the current best's, so ties keep the earliest
element in enumeration order. -/
def pyMaxKey (key : String → Nat) : String → List String → String
  | best, [] => best
  | best, x :: xs => pyMaxKey key (if key best < key x then x else best) xs

/-- Python's `max(l, key=k)` for a nonempty list (the empty case is
unreachable: the caller guards with `if detected_languages:`). -/
def pyMaxList (key : String → Nat) : List String → String
  | [] => ""
  | x :: xs => pyMaxKey key x xs

/-- A valid enumeration order for Python's `set(xs)`: some permutation
of the distinct elements of `xs`.  CPython enumerates string sets in a
hash-dependent order that varies between processes, so any such
permutation can be observed. -/
def IsSetOrder (xs order : List String) : Prop := order.Perm xs.dedup

/-- One concrete valid set-enumeration oracle: distinct elements in
order of their occurrence pattern given by `List.dedup`. -/
def setOrderFirst (xs : List String) : List String := xs.dedup

/-- Another concrete valid set-enumeration oracle: the reverse
enumeration. -/
def setOrderRev (xs : List String) : List String := xs.dedup.reverse

/-- Model of `transcribe_chunks` (src/batch_transcribe.py:281-322), parameterised
by the set-enumeration oracle `setOrder` and by the initial content of
the partial-checkpoint file (`disk0`; `none` when the file is absent).
The `video_name` argument of the source only selects the checkpoint
file's name and the progress-bar label, so it is not modelled.  On
success the code computes `max(set(detected_languages),
key=detected_languages.count)` (or `"unknown"` with no votes), removes
the checkpoint file if present, and returns the space-joined text with
the language; on failure the exception propagates. -/
def transcribe_chunks (setOrder : List String → List String)
    (chunks : List NetOutcome) (disk0 : Option Checkpoint) :
    Except ChunkState (TranscriptionResult × ChunkState) :=
  match runChunks chunks.length chunks 0 ⟨[], [], disk0, 0, 0⟩ with
  | .error st => .error st
  | .ok st =>
    let lang :=
      if st.detected ≠ [] then
        pyMaxList (fun l => st.detected.count l) (setOrder st.detected)
      else "unknown"
    let st1 := if st.disk.isSome then { st with disk := none } else st
    .ok (⟨String.intercalate " " st.transcriptions, lang⟩, st1)

instance {ε α : Type} [DecidableEq ε] [DecidableEq α] : DecidableEq (Except ε α)
  | .error e, .error e' =>
    if h : e = e' then isTrue (congrArg Except.error h)
    else isFalse fun hh => h (Except.error.inj hh)
  | .error _, .ok _ => isFalse fun hh => Except.noConfusion hh
  | .ok _, .error _ => isFalse fun hh => Except.noConfusion hh
  | .ok a, .ok a' =>
    if h : a = a' then isTrue (congrArg Except.ok h)
    else isFalse fun hh => h (Except.ok.inj hh)

/-- A 200 response whose JSON object carries exactly the given text and
language: the shape of a fully successful per-chunk service response. -/
def okResp (r : TranscriptionResult) : NetOutcome :=
  .resp 200 (some (.dict (some r.text) (some r.language))) ""

/-- The text a chunk's service interaction contributes to the
`transcriptions` list: `some` of the result text on per-chunk success,
`none` when the call raises. -/
def okText (c : NetOutcome) : Option String :=
  match transcribe_chunk_with_requests c with
  | .ok r => some r.text
  | .error _ => none

/-- The language vote a chunk contributes to `detected_languages`:
`some` of the detected language on success when it is not `"unknown"`. -/
def okVote (c : NetOutcome) : Option String :=
  match transcribe_chunk_with_requests c with
  | .ok r => if r.language ≠ "unknown" then some r.language else none
  | .error _ => none

/-- Every chunk interaction in the list succeeds. -/
def ChunksOk (cs : List NetOutcome) : Prop :=
  ∀ c ∈ cs, (transcribe_chunk_with_requests c).isOk

/-- The state carried by either outcome of a run. -/
def resultState : Except ChunkState ChunkState → ChunkState
  | .ok st => st
  | .error st => st

/-- The per-video non-`"unknown"` language votes, as accumulated by the
loop: the detected languages in chunk order with `"unknown"` dropped. -/
def langVotes (rs : List TranscriptionResult) : List String :=
  (rs.map (·.language)).filter (fun l => l ≠ "unknown")

/-- The state of the `transcribe_chunks` loop after its first `k`
iterations (clamped at the end of the chunk list), starting from a
fresh run (no pre-existing checkpoint): ok with the mid-loop state, or
the error state if a failure occurred within the first `k` chunks. -/
def midState (cs : List NetOutcome) (k : Nat) : Except ChunkState ChunkState :=
  runChunks cs.length (cs.take k) 0 ⟨[], [], none, 0, 0⟩

/-- The partial-checkpoint file on disk after the first `k` loop
iterations of a fresh `transcribe_chunks` run over `cs`. -/
def diskAfter (cs : List NetOutcome) (k : Nat) : Option Checkpoint :=
  (resultState (midState cs k)).disk

/-- The checkpoint content, when present, is well-formed with respect to
the chunk sequence `cs`: it is labelled `m/N` for some `m ≤ N` such that
the first `m` chunks all succeeded, and its body is exactly the
space-joined texts of chunks `0..m-1` in index order (a gap-free prefix
of the per-chunk texts). -/
def DiskOk (cs : List NetOutcome) : Option Checkpoint → Prop
  | none => True
  | some ck => ∃ m, m ≤ cs.length ∧ ChunksOk (cs.take m) ∧
      ck = ⟨m, cs.length, String.intercalate " " ((cs.take m).filterMap okText)⟩

/-! ## Chunker (`chunk_audio`, src/batch_transcribe.py:222-247)

`chunk_audio` loads the audio (`total_duration = len(audio)`
milliseconds), derives a chunk length `chunk_length_ms` from the sizing
formula (float arithmetic, then `int(...)`; only its positivity matters
here), and slices `audio[i:i+L]` for `i in range(0, D, L)`.  `D` and
`L` below are the millisecond duration and chunk length; the `j`-th
iteration has `i = j*L` and pydub slicing clamps at the end, so the
exported chunk has length `min L (D - j*L)`. -/

/-- The number of loop iterations of `for i in range(0, total_duration,
chunk_length_ms)`: `range(0, D, L)` has `⌈D / L⌉` elements for a
positive step `L`. -/
def numChunks (D L : Nat) : Nat := (D + L - 1) / L

/-- The millisecond length of the `j`-th exported chunk,
`len(audio[j*L : j*L + L])`: pydub slices clamp at the source's end. -/
def winLen (D L j : Nat) : Nat := min L (D - j * L)

/-- The durations of the chunks exported by `chunk_audio`, in export
order. -/
def chunk_audio_lens (D L : Nat) : List Nat :=
  (List.range (numChunks D L)).map (fun j => winLen D L j)

/-! ## Chunk file naming (src/batch_transcribe.py:238-245)

Chunks are exported as `f"chunk_{chunk_num:03d}.wav"` with
`chunk_num = i // chunk_length_ms`, i.e. the sequential index `j`.
`%03d` renders the decimal digits of `j` left-padded with `'0'` to
width 3; numbers of four or more digits are rendered unpadded and
untruncated. -/

/-- Decimal digits (most significant first) with explicit fuel; the
fuel only bounds the recursion depth and `n + 1` is always enough. -/
def natDigitsAux : Nat → Nat → List Nat
  | 0, _ => []
  | fuel + 1, n => if n < 10 then [n] else natDigitsAux fuel (n / 10) ++ [n % 10]

/-- The decimal digits of `n`, most significant first (`[0]` for 0). -/
def natDigits (n : Nat) : List Nat := natDigitsAux (n + 1) n

/-- Python's `"%03d" % n` as a character list: decimal digits
left-padded with `'0'` to width 3. -/
def format03dChars (n : Nat) : List Char :=
  let ds := (natDigits n).map Nat.digitChar
  List.replicate (3 - ds.length) '0' ++ ds

/-- The chunk file name `f"chunk_{j:03d}.wav"` of the `j`-th chunk. -/
def chunk_filename (j : Nat) : String :=
  "chunk_" ++ String.mk (format03dChars j) ++ ".wav"

/-! ## `sanitize_filename` (src/batch_transcribe.py:102-131)

Strings are handled as their character lists.  `str.lower()` is
modelled on ASCII letters only: the regex replacement that follows maps
every character outside `[a-z0-9_-]` to `'-'`, so non-ASCII case
mapping cannot influence the result except through exotic case
foldings into ASCII, which are not modelled. -/

/-- The test `'..' in filename`. -/
def containsDotDot : List Char → Bool
  | '.' :: '.' :: _ => true
  | _ :: rest => containsDotDot rest
  | [] => false

/-- The index of the last `'.'` in the list, if any. -/
def lastDotIdx : List Char → Option Nat
  | [] => none
  | c :: rest =>
    match lastDotIdx rest with
    | some i => some (i + 1)
    | none => if c = '.' then some 0 else none

/-- Python `os.path.splitext(p)[0]` for a `p` free of path separators: cut at
the last dot, unless every character before it is itself a dot (then
the name has no extension — e.g. `".bashrc"`, `"..."`). -/
def splitextRoot (l : List Char) : List Char :=
  match lastDotIdx l with
  | none => l
  | some i => if (l.take i).all (fun c => c == '.') then l else l.take i

/-- Python `str.lower()` on ASCII letters. -/
def asciiLower (c : Char) : Char :=
  if 'A' ≤ c ∧ c ≤ 'Z' then Char.ofNat (c.toNat + 32) else c

/-- Membership in the safe character class `[a-z0-9_-]`. -/
def isSafeChar (c : Char) : Bool :=
  ('a' ≤ c && c ≤ 'z') || ('0' ≤ c && c ≤ '9') || c == '_' || c == '-'

/-- One character of `re.sub(r'[^a-z0-9_-]', '-', name)`. -/
def replaceUnsafe (c : Char) : Char :=
  if isSafeChar c then c else '-'

/-- Python `re.sub(r'-+', '-', s)`: collapse every maximal run of hyphens to a
single hyphen; the flag records whether the previous kept character was
part of a hyphen run. -/
def collapseHyphens : Bool → List Char → List Char
  | _, [] => []
  | prev, c :: rest =>
    if c = '-' then
      if prev then collapseHyphens true rest
      else '-' :: collapseHyphens true rest
    else c :: collapseHyphens false rest

/-- Python `s.strip('-')`. -/
def stripHyphens (l : List Char) : List Char :=
  ((l.dropWhile (fun c => c == '-')).reverse.dropWhile (fun c => c == '-')).reverse

/-- Model of `sanitize_filename` (src/batch_transcribe.py:102-131): reject names
containing `".."`, `"/"` or `"\\"`; otherwise strip the extension,
lowercase, replace unsafe characters by `'-'`, collapse hyphen runs,
strip boundary hyphens, fall back to `"unnamed"` when empty, and cap at
100 characters. -/
def sanitize_filename (filename : String) : Option String :=
  if containsDotDot filename.data || filename.data.contains '/' ||
      filename.data.contains '\\' then
    none
  else
    let name := splitextRoot filename.data
    let name := name.map asciiLower
    let sanitized := name.map replaceUnsafe
    let sanitized := collapseHyphens false sanitized
    let sanitized := stripHyphens sanitized
    let sanitized := if sanitized = [] then "unnamed".data else sanitized
    some (String.mk (sanitized.take 100))

/-! ## `secure_path_join` (src/batch_transcribe.py:66-81)

Paths are modelled as lists of the components between separators, with
an absolute flag.  `os.path.join` discards everything accumulated so
far when it meets an absolute component.  `os.path.abspath` prefixes
the working directory when the path is relative and then *textually*
normalises `.` and `..` (`normpath`); it does not consult the
filesystem, so symbolic links are not resolved (that would be
`os.path.realpath`).  The containment test
`requested.startswith(base_dir + os.sep) or requested == base_dir` is,
for normalised absolute paths with a non-empty component list, exactly
component-list prefixing (the separator appended to `base_dir` makes a
partial final component such as `/work` vs `/workspace` fail, which
component-wise prefixing reproduces). -/

/-- An operating-system path: absolute flag plus components. -/
structure PyPath where
  isAbs : Bool
  comps : List String
deriving DecidableEq

/-- Python `os.path.join(base, *paths)`: an absolute later component discards
everything before it. -/
def osJoin (base : PyPath) (parts : List PyPath) : PyPath :=
  parts.foldl (fun acc p =>
    if p.isAbs then p else ⟨acc.isAbs, acc.comps ++ p.comps⟩) base

/-- Python `os.path.normpath` on the components of an absolute path: `.` and
empty components vanish, `..` removes the previous component and is
dropped at the root (`normpath('/..') == '/'`). -/
def normComps (l : List String) : List String :=
  l.foldl (fun acc c =>
    if c = "." ∨ c = "" then acc
    else if c = ".." then acc.dropLast
    else acc ++ [c]) []

/-- Python `os.path.abspath` relative to the (absolute, normalised) working
directory `cwd`: purely textual, no symlink resolution. -/
def abspath (cwd : PyPath) (p : PyPath) : PyPath :=
  if p.isAbs then ⟨true, normComps p.comps⟩
  else ⟨true, normComps (cwd.comps ++ p.comps)⟩

/-- Boolean component-list prefix test. -/
def compsLe : List String → List String → Bool
  | [], _ => true
  | _ :: _, [] => false
  | a :: as, b :: bs => a == b && compsLe as bs

/-- The containment check of `secure_path_join`:
`requested == base_dir or requested.startswith(base_dir + os.sep)`. -/
def underBase (base req : PyPath) : Bool :=
  req == base || (!base.comps.isEmpty && compsLe base.comps req.comps)

/-- Model of `secure_path_join(base_dir, *paths)`: resolve the join of the
absolutised base with the parts, and return it only when it stays under
the base; otherwise raise `ValueError` (`none`). -/
def secure_path_join (cwd base : PyPath) (parts : List PyPath) : Option PyPath :=
  let baseDir := abspath cwd base
  let requested := abspath cwd (osJoin baseDir parts)
  if underBase baseDir requested then some requested else none

/-- One symbolic link `link → target` on the filesystem (absolute
component lists): physically resolving a path that passes through
`link` re-roots its remainder at `target`.  This is the filesystem
lookup `os.path.realpath` performs and `os.path.abspath` skips. -/
def resolveOneLink (link target p : List String) : List String :=
  if compsLe link p then target ++ p.drop link.length else p

/-! ## Theorems -/

theorem okText_eq_some {c : NetOutcome} (h : (transcribe_chunk_with_requests c).isOk) :
    ∃ r, transcribe_chunk_with_requests c = .ok r ∧ okText c = some r.text := by
  unfold okText
  cases hc : transcribe_chunk_with_requests c with
  | ok r => exact ⟨r, rfl, rfl⟩
  | error e => rw [hc] at h; cases h

theorem okText_of_ok {c : NetOutcome} {r : TranscriptionResult}
    (hr : transcribe_chunk_with_requests c = .ok r) : okText c = some r.text := by
  unfold okText; rw [hr]

theorem okVote_of_ok {c : NetOutcome} {r : TranscriptionResult}
    (hr : transcribe_chunk_with_requests c = .ok r) :
    okVote c = if r.language ≠ "unknown" then some r.language else none := by
  unfold okVote; rw [hr]

/-- Processing a concatenation of chunk lists: the run short-circuits at
an error in the front list, else continues on the back list with the
index advanced. -/
theorem runChunks_append (N : Nat) (l₁ l₂ : List NetOutcome) (i : Nat) (st : ChunkState) :
    runChunks N (l₁ ++ l₂) i st =
      match runChunks N l₁ i st with
      | .error e => .error e
      | .ok st' => runChunks N l₂ (i + l₁.length) st' := by
  induction l₁ generalizing i st with
  | nil => simp [runChunks]
  | cons c rest ih =>
    simp only [List.cons_append, runChunks]
    cases hc : transcribe_chunk_with_requests c with
    | ok r =>
      dsimp only
      rw [List.append_eq, ih]
      have : i + 1 + rest.length = i + (rest.length + 1) := by omega
      rw [List.length_cons, this]
    | error e => dsimp only

/-- A run over all-successful chunks returns `.ok`; the transcription
and vote lists grow by exactly the per-chunk contributions in order, and
one service call is made per chunk. -/
theorem runChunks_allOk (cs : List NetOutcome) (h : ChunksOk cs) (N i : Nat) (st : ChunkState) :
    ∃ d w, runChunks N cs i st =
      .ok ⟨st.transcriptions ++ cs.filterMap okText,
           st.detected ++ cs.filterMap okVote, d, st.calls + cs.length, w⟩ := by
  induction cs generalizing i st with
  | nil => exact ⟨st.disk, st.writes, by simp [runChunks]⟩
  | cons c rest ih =>
    obtain ⟨r, hr, ht⟩ := okText_eq_some (h c (by simp))
    have hrest : ChunksOk rest := fun x hx => h x (by simp [hx])
    have htc : (c :: rest).filterMap okText = r.text :: rest.filterMap okText := by
      rw [List.filterMap_cons, ht]
    have hvc : st.detected ++ (c :: rest).filterMap okVote =
        (if r.language ≠ "unknown" then st.detected ++ [r.language] else st.detected) ++
          rest.filterMap okVote := by
      rw [List.filterMap_cons, okVote_of_ok hr]
      by_cases hu : r.language ≠ "unknown" <;> simp [hu]
    simp only [runChunks, hr]
    by_cases hsave : (i + 1) % saveFrequency = 0 ∨ i + 1 = N
    · obtain ⟨d, w, hw⟩ := ih hrest (i + 1)
        { transcriptions := st.transcriptions ++ [r.text],
          detected := if r.language ≠ "unknown" then st.detected ++ [r.language] else st.detected,
          disk := some ⟨i + 1, N, String.intercalate " " (st.transcriptions ++ [r.text])⟩,
          calls := st.calls + 1, writes := st.writes + 1 }
      refine ⟨d, w, ?_⟩
      rw [if_pos hsave, hw]
      simp only [htc, hvc, List.length_cons]
      refine congrArg Except.ok ?_
      refine ChunkState.mk.injEq .. ▸ ?_
      simp [List.append_assoc]
      omega
    · obtain ⟨d, w, hw⟩ := ih hrest (i + 1)
        { transcriptions := st.transcriptions ++ [r.text],
          detected := if r.language ≠ "unknown" then st.detected ++ [r.language] else st.detected,
          disk := st.disk, calls := st.calls + 1, writes := st.writes }
      refine ⟨d, w, ?_⟩
      rw [if_neg hsave, hw]
      simp only [htc, hvc, List.length_cons]
      refine congrArg Except.ok ?_
      refine ChunkState.mk.injEq .. ▸ ?_
      simp [List.append_assoc]
      omega

/-- Unfolding the loop at a chunk whose service interaction fails: one
more call is counted, a failure checkpoint labelled `i/N` is written
exactly when some text has already been accumulated, and the error
propagates. -/
theorem runChunks_fail_cons {c : NetOutcome} {e : String}
    (hc : transcribe_chunk_with_requests c = .error e) (N : Nat) (rest : List NetOutcome)
    (i : Nat) (st : ChunkState) :
    runChunks N (c :: rest) i st =
      .error (if st.transcriptions ≠ [] then
        { st with
          calls := st.calls + 1
          disk := some ⟨i, N, String.intercalate " " st.transcriptions⟩
          writes := st.writes + 1 }
      else { st with calls := st.calls + 1 }) := by
  simp only [runChunks, hc]

/-- The loop never deletes the checkpoint file: if it exists when the
loop starts, it exists when the loop stops (successfully or not). -/
theorem runChunks_disk_isSome (N : Nat) (cs : List NetOutcome) (i : Nat) (st : ChunkState)
    (h : st.disk.isSome) : (resultState (runChunks N cs i st)).disk.isSome := by
  induction cs generalizing i st with
  | nil => simpa [runChunks, resultState]
  | cons c rest ih =>
    rw [runChunks]
    cases hc : transcribe_chunk_with_requests c with
    | ok r =>
      dsimp only
      by_cases hsave : (i + 1) % saveFrequency = 0 ∨ i + 1 = N
      · rw [if_pos hsave]; exact ih (i + 1) _ rfl
      · rw [if_neg hsave]; exact ih (i + 1) _ h
    | error e =>
      dsimp only [resultState]
      by_cases hne : st.transcriptions ≠ [] <;> simp [hne, resultState, h]

theorem pyMaxKey_cases (key : String → Nat) (b : String) (l : List String) :
    pyMaxKey key b l = b ∨ pyMaxKey key b l ∈ l := by
  induction l generalizing b with
  | nil => left; rfl
  | cons x xs ih =>
    rw [pyMaxKey]
    by_cases hx : key b < key x
    · rw [if_pos hx]
      rcases ih x with h | h
      · right; rw [h]; exact List.mem_cons_self x xs
      · right; exact List.mem_cons_of_mem x h
    · rw [if_neg hx]
      rcases ih b with h | h
      · left; exact h
      · right; exact List.mem_cons_of_mem x h

theorem pyMaxKey_le (key : String → Nat) (l : List String) (b : String) :
    key b ≤ key (pyMaxKey key b l) ∧ ∀ x ∈ l, key x ≤ key (pyMaxKey key b l) := by
  induction l generalizing b with
  | nil => exact ⟨Nat.le_refl _, by simp⟩
  | cons x xs ih =>
    rw [pyMaxKey]
    by_cases hx : key b < key x
    · rw [if_pos hx]
      obtain ⟨h1, h2⟩ := ih x
      refine ⟨Nat.le_of_lt (Nat.lt_of_lt_of_le hx h1), ?_⟩
      intro y hy
      rcases List.mem_cons.mp hy with rfl | hy
      · exact h1
      · exact h2 y hy
    · rw [if_neg hx]
      obtain ⟨h1, h2⟩ := ih b
      refine ⟨h1, ?_⟩
      intro y hy
      rcases List.mem_cons.mp hy with rfl | hy
      · exact Nat.le_trans (Nat.le_of_not_lt hx) h1
      · exact h2 y hy

/-- Python's `max(l, key=k)` returns an element of the (nonempty) list. -/
theorem pyMaxList_mem (key : String → Nat) {l : List String} (hl : l ≠ []) :
    pyMaxList key l ∈ l := by
  cases l with
  | nil => exact absurd rfl hl
  | cons x xs =>
    rw [pyMaxList]
    rcases pyMaxKey_cases key x xs with h | h
    · rw [h]; exact List.mem_cons_self x xs
    · exact List.mem_cons_of_mem x h

/-- Python's `max(l, key=k)` attains the maximal key over the list. -/
theorem pyMaxList_le (key : String → Nat) {l : List String} :
    ∀ x ∈ l, key x ≤ key (pyMaxList key l) := by
  cases l with
  | nil => simp
  | cons x xs =>
    intro y hy
    rw [pyMaxList]
    obtain ⟨h1, h2⟩ := pyMaxKey_le key xs x
    rcases List.mem_cons.mp hy with rfl | hy
    · exact h1
    · exact h2 y hy

/-- A fully successful service response decodes to exactly its result. -/
theorem tcw_okResp (r : TranscriptionResult) :
    transcribe_chunk_with_requests (okResp r) = .ok r := rfl

theorem chunksOk_map_okResp (rs : List TranscriptionResult) : ChunksOk (rs.map okResp) := by
  intro c hc
  obtain ⟨r, _, rfl⟩ := List.mem_map.mp hc
  rw [tcw_okResp]
  rfl

theorem filterMap_okText_map (rs : List TranscriptionResult) :
    (rs.map okResp).filterMap okText = rs.map (·.text) := by
  induction rs with
  | nil => rfl
  | cons r rest ih =>
    simp only [List.map_cons, List.filterMap_cons, okText_of_ok (tcw_okResp r), ih]

theorem filterMap_okVote_map (rs : List TranscriptionResult) :
    (rs.map okResp).filterMap okVote = langVotes rs := by
  induction rs with
  | nil => rfl
  | cons r rest ih =>
    simp only [List.map_cons, List.filterMap_cons, okVote_of_ok (tcw_okResp r), langVotes,
      List.filter_cons] at *
    by_cases hu : r.language ≠ "unknown" <;> simp [hu, ih]

/-- Characterisation of a fully successful `transcribe_chunks` run over
chunks whose service responses are the given results: it returns the
space-joined texts in chunk order, the language chosen by
`max(set(votes), key=votes.count)` (or `"unknown"` with no votes), and
leaves no checkpoint file. -/
theorem transcribe_chunks_okRun (o : List String → List String)
    (rs : List TranscriptionResult) (d0 : Option Checkpoint) :
    ∃ st, transcribe_chunks o (rs.map okResp) d0 =
      .ok (⟨String.intercalate " " (rs.map (·.text)),
            if langVotes rs ≠ [] then
              pyMaxList (fun l => (langVotes rs).count l) (o (langVotes rs))
            else "unknown"⟩, st) ∧ st.disk = none := by
  obtain ⟨d, w, hw⟩ := runChunks_allOk (rs.map okResp) (chunksOk_map_okResp rs)
    (rs.map okResp).length 0 ⟨[], [], d0, 0, 0⟩
  rw [transcribe_chunks, hw]
  simp only [filterMap_okText_map, filterMap_okVote_map, List.nil_append]
  cases d with
  | none => exact ⟨_, rfl, rfl⟩
  | some ck => exact ⟨_, rfl, rfl⟩

/-- If every key strictly dominates all rivals at `u`, Python's
`max(l, key=k)` returns `u`, independently of the enumeration order. -/
theorem pyMaxList_eq_of_unique (key : String → Nat) {l : List String} {u : String}
    (hu : u ∈ l) (hmax : ∀ x ∈ l, x ≠ u → key x < key u) : pyMaxList key l = u := by
  have hl : l ≠ [] := by intro h; rw [h] at hu; cases hu
  by_contra hne
  exact absurd (pyMaxList_le key u hu)
    (Nat.not_le.mpr (hmax _ (pyMaxList_mem key hl) hne))

/-- C1 (counterexample): the returned language is not a function of the
chunk sequence and the service responses alone.  With per-chunk
languages `["en", "es"]` (a tie), two runs whose `set(...)` enumeration
orders differ — both orders being valid enumerations of the same set —
return different languages, so two executions of the program given
identical responses can disagree. -/
theorem c1_language_tie_counterexample :
    IsSetOrder ["en", "es"] (setOrderFirst ["en", "es"]) ∧
    IsSetOrder ["en", "es"] (setOrderRev ["en", "es"]) ∧
    transcribe_chunks setOrderFirst [okResp ⟨"a", "en"⟩, okResp ⟨"b", "es"⟩] none ≠
      transcribe_chunks setOrderRev [okResp ⟨"a", "en"⟩, okResp ⟨"b", "es"⟩] none :=
  ⟨List.Perm.refl _, List.reverse_perm _, by decide⟩

/-- C1 (amended): for every chunk sequence whose per-chunk
transcriptions all succeed with texts `t0..t(N-1)`, `transcribe_chunks`
returns a full text equal to the single-space-joined concatenation of
`t0..t(N-1)` in chunk index order, and the full text is the same for
every `set(...)` enumeration order, hence identical across runs given
identical responses; only the returned language may differ between runs,
namely when the most frequent non-`"unknown"` tag is tied. -/
theorem c1_full_text_is_ordered_join (o : List String → List String)
    (rs : List TranscriptionResult) (d0 : Option Checkpoint) :
    ∃ lang st, transcribe_chunks o (rs.map okResp) d0 =
      .ok (⟨String.intercalate " " (rs.map (·.text)), lang⟩, st) := by
  obtain ⟨st, h, -⟩ := transcribe_chunks_okRun o rs d0
  exact ⟨_, st, h⟩

/-- C5: on a fully successful run the returned language is a most
frequent tag among the non-`"unknown"` per-chunk detected languages
(for any valid `set(...)` enumeration order), and it is `"unknown"`
exactly when there are no votes; in particular detected languages
`["en", "en", "es"]` yield `"en"`, and all-`"unknown"` chunks yield
`"unknown"`. -/
theorem c5_language_majority_vote :
    (∀ (o : List String → List String), (∀ xs, IsSetOrder xs (o xs)) →
      ∀ (rs : List TranscriptionResult) (d0 : Option Checkpoint),
      ∃ lang st, transcribe_chunks o (rs.map okResp) d0 =
        .ok (⟨String.intercalate " " (rs.map (·.text)), lang⟩, st) ∧
        (langVotes rs = [] → lang = "unknown") ∧
        (langVotes rs ≠ [] → lang ∈ langVotes rs ∧
          ∀ t ∈ langVotes rs, (langVotes rs).count t ≤ (langVotes rs).count lang)) ∧
    (∀ (o : List String → List String), (∀ xs, IsSetOrder xs (o xs)) →
      ∃ st, transcribe_chunks o
        [okResp ⟨"x", "en"⟩, okResp ⟨"y", "en"⟩, okResp ⟨"z", "es"⟩] none =
        .ok (⟨"x y z", "en"⟩, st)) ∧
    (∀ (o : List String → List String),
      ∃ st, transcribe_chunks o
        [okResp ⟨"x", "unknown"⟩, okResp ⟨"y", "unknown"⟩] none =
        .ok (⟨"x y", "unknown"⟩, st)) := by
  have main : ∀ (o : List String → List String), (∀ xs, IsSetOrder xs (o xs)) →
      ∀ (rs : List TranscriptionResult) (d0 : Option Checkpoint),
      ∃ lang st, transcribe_chunks o (rs.map okResp) d0 =
        .ok (⟨String.intercalate " " (rs.map (·.text)), lang⟩, st) ∧
        (langVotes rs = [] → lang = "unknown") ∧
        (langVotes rs ≠ [] → lang ∈ langVotes rs ∧
          ∀ t ∈ langVotes rs, (langVotes rs).count t ≤ (langVotes rs).count lang) := by
    intro o ho rs d0
    obtain ⟨st, h, -⟩ := transcribe_chunks_okRun o rs d0
    refine ⟨_, st, h, ?_, ?_⟩
    · intro hv; rw [if_neg (by simpa using hv)]
    · intro hv
      rw [if_pos hv]
      have hperm : (o (langVotes rs)).Perm (langVotes rs).dedup := ho (langVotes rs)
      have hne : o (langVotes rs) ≠ [] := by
        intro hnil
        rw [hnil] at hperm
        exact hv ((List.dedup_eq_nil _).mp hperm.symm.eq_nil)
      have hmem : pyMaxList (fun l => (langVotes rs).count l) (o (langVotes rs)) ∈
          langVotes rs := by
        have := pyMaxList_mem (fun l => (langVotes rs).count l) hne
        exact List.mem_dedup.mp (hperm.mem_iff.mp this)
      refine ⟨hmem, ?_⟩
      intro t ht
      exact pyMaxList_le (fun l => (langVotes rs).count l)
        t (hperm.mem_iff.mpr (List.mem_dedup.mpr ht))
  refine ⟨main, ?_, ?_⟩
  · intro o ho
    obtain ⟨lang, st, h, -, hmax⟩ :=
      main o ho [⟨"x", "en"⟩, ⟨"y", "en"⟩, ⟨"z", "es"⟩] none
    have hv : langVotes [⟨"x", "en"⟩, ⟨"y", "en"⟩, ⟨"z", "es"⟩] = ["en", "en", "es"] := by
      decide
    obtain ⟨hmem, hle⟩ := hmax (by rw [hv]; decide)
    have hlang : lang = "en" := by
      rw [hv] at hmem hle
      rcases List.mem_cons.mp hmem with rfl | hmem2
      · rfl
      · rcases List.mem_cons.mp hmem2 with rfl | hmem3
        · rfl
        · rcases List.mem_cons.mp hmem3 with rfl | hmem4
          · exact absurd (hle "en" (by decide)) (by decide)
          · cases hmem4
    rw [hlang] at h
    exact ⟨st, h⟩
  · intro o
    obtain ⟨st, h, -⟩ := transcribe_chunks_okRun o [⟨"x", "unknown"⟩, ⟨"y", "unknown"⟩] none
    rw [if_neg (by decide)] at h
    exact ⟨st, h⟩

/-- C5 (witness): the majority-vote theorem applied at a concrete valid
enumeration oracle and the concrete `["en", "en", "es"]` vote list. -/
theorem c5_language_majority_vote_witness :
    ∃ st, transcribe_chunks setOrderFirst
      [okResp ⟨"x", "en"⟩, okResp ⟨"y", "en"⟩, okResp ⟨"z", "es"⟩] none =
      .ok (⟨"x y z", "en"⟩, st) :=
  c5_language_majority_vote.2.1 setOrderFirst (fun _ => List.Perm.refl _)

/-- C10: called on an empty chunk list, `transcribe_chunks` returns the
empty text with language `"unknown"`, makes no service call and writes
no partial-checkpoint file (and the checkpoint file is absent
afterwards). -/
theorem c10_empty_chunk_list (o : List String → List String) (d0 : Option Checkpoint) :
    ∃ st, transcribe_chunks o [] d0 = .ok (⟨"", "unknown"⟩, st) ∧
      st.calls = 0 ∧ st.writes = 0 ∧ st.disk = none := by
  cases d0 with
  | none => exact ⟨_, rfl, rfl, rfl, rfl⟩
  | some ck => exact ⟨_, rfl, rfl, rfl, rfl⟩

/-- C4: the partial checkpoint does not exist after a fully successful
`transcribe_chunks` run (it is always deleted on full success), and a
failing run never deletes an existing checkpoint (deletion happens only
upon full success). -/
theorem c4_checkpoint_deleted_iff_success (o : List String → List String)
    (chunks : List NetOutcome) (d0 : Option Checkpoint) :
    (∀ r st, transcribe_chunks o chunks d0 = .ok (r, st) → st.disk = none) ∧
    (∀ st, transcribe_chunks o chunks d0 = .error st → d0.isSome → st.disk.isSome) := by
  constructor
  · intro r st h
    rw [transcribe_chunks] at h
    cases hr : runChunks chunks.length chunks 0 ⟨[], [], d0, 0, 0⟩ with
    | error e => rw [hr] at h; cases h
    | ok st' =>
      rw [hr] at h
      dsimp only at h
      have hst : (if st'.disk.isSome then { st' with disk := none } else st') = st :=
        congrArg Prod.snd (Except.ok.inj h)
      by_cases hd : st'.disk.isSome
      · rw [if_pos hd] at hst; rw [← hst]
      · rw [if_neg hd] at hst; rw [← hst]
        exact Option.not_isSome_iff_eq_none.mp hd
  · intro st h hd0
    rw [transcribe_chunks] at h
    cases hr : runChunks chunks.length chunks 0 ⟨[], [], d0, 0, 0⟩ with
    | ok st' => rw [hr] at h; cases h
    | error e =>
      rw [hr] at h
      have : e = st := Except.error.inj h
      have hmono := runChunks_disk_isSome chunks.length chunks 0 ⟨[], [], d0, 0, 0⟩ hd0
      rw [hr] at hmono
      exact this ▸ hmono

/-- C4 (witness): a successful one-chunk run starting with an existing
stale checkpoint ends with the checkpoint file removed. -/
theorem c4_checkpoint_deleted_witness :
    (⟨["a"], ["en"], none, 1, 1⟩ : ChunkState).disk = none :=
  (c4_checkpoint_deleted_iff_success setOrderFirst [okResp ⟨"a", "en"⟩] (some ⟨0, 0, ""⟩)).1
    ⟨"a", "en"⟩ ⟨["a"], ["en"], none, 1, 1⟩ (by decide)

/-- On a chunk sequence of successful chunks followed by a failing one,
`transcribe_chunks` raises after writing the failure checkpoint,
provided at least one chunk completed before the failure. -/
theorem transcribe_chunks_failAfter (o : List String → List String)
    (pre : List TranscriptionResult) (bad : NetOutcome) (e : String)
    (hbad : transcribe_chunk_with_requests bad = .error e) (hpre : pre ≠ [])
    (rest : List NetOutcome) (d0 : Option Checkpoint) :
    ∃ st, transcribe_chunks o (pre.map okResp ++ bad :: rest) d0 = .error st ∧
      st.disk = some ⟨pre.length, (pre.map okResp ++ bad :: rest).length,
        String.intercalate " " (pre.map (·.text))⟩ ∧
      st.transcriptions = pre.map (·.text) := by
  rw [transcribe_chunks, runChunks_append]
  obtain ⟨d, w, hw⟩ := runChunks_allOk (pre.map okResp) (chunksOk_map_okResp pre)
    (pre.map okResp ++ bad :: rest).length 0 ⟨[], [], d0, 0, 0⟩
  rw [hw]
  dsimp only
  rw [runChunks_fail_cons hbad]
  have hne : ([] : List String) ++ (pre.map okResp).filterMap okText ≠ [] := by
    rw [List.nil_append, filterMap_okText_map]
    simpa using hpre
  rw [if_pos hne]
  refine ⟨_, rfl, ?_, ?_⟩ <;>
    simp only [List.nil_append, filterMap_okText_map, List.length_map, Nat.zero_add]

/-- Loop invariant: after any number of iterations of a fresh run, the
in-memory transcription list is the texts of the completed gap-free
prefix, and the checkpoint on disk (if any) is well-formed. -/
theorem midState_spec (cs : List NetOutcome) (k : Nat) :
    (∃ st, midState cs k = .ok st ∧
      st.transcriptions = (cs.take k).filterMap okText ∧
      ChunksOk (cs.take k) ∧ DiskOk cs st.disk) ∨
    (∃ st, midState cs k = .error st ∧ DiskOk cs st.disk) := by
  induction k with
  | zero =>
    left
    refine ⟨_, rfl, rfl, ?_, trivial⟩
    intro c hc
    simp at hc
  | succ k ih =>
    by_cases hk : cs.length ≤ k
    · have htake : cs.take (k + 1) = cs.take k := by
        rw [List.take_of_length_le hk, List.take_of_length_le (Nat.le_succ_of_le hk)]
      have hmid : midState cs (k + 1) = midState cs k := by
        unfold midState; rw [htake]
      rw [hmid, htake]
      exact ih
    · push_neg at hk
      have hget : cs[k]? = some cs[k] := List.getElem?_eq_getElem hk
      have htake : cs.take (k + 1) = cs.take k ++ [cs[k]] := by
        rw [List.take_succ, hget]; rfl
      have hlen : (cs.take k).length = k := by
        rw [List.length_take]; omega
      have hcokSucc : ChunksOk (cs.take k) →
          (transcribe_chunk_with_requests cs[k]).isOk → ChunksOk (cs.take (k + 1)) := by
        intro hcok hok c hc
        rw [htake] at hc
        rcases List.mem_append.mp hc with hc | hc
        · exact hcok c hc
        · rw [List.mem_singleton.mp hc]; exact hok
      have hmid : midState cs (k + 1) =
          match midState cs k with
          | .error e => .error e
          | .ok st => runChunks cs.length [cs[k]] (0 + (cs.take k).length) st := by
        unfold midState
        rw [htake, runChunks_append]
      rcases ih with ⟨st, hok, hts, hcok, hdisk⟩ | ⟨st, herr, hdisk⟩
      · rw [hmid, hok]
        dsimp only
        rw [Nat.zero_add, hlen]
        cases hc : transcribe_chunk_with_requests cs[k] with
        | ok r =>
          have hts' : (cs.take (k + 1)).filterMap okText =
              (cs.take k).filterMap okText ++ [r.text] := by
            rw [htake, List.filterMap_append]
            simp [List.filterMap_cons, okText_of_ok hc]
          have hcok' : ChunksOk (cs.take (k + 1)) :=
            hcokSucc hcok (by rw [hc]; rfl)
          left
          simp only [runChunks, hc]
          by_cases hsave : (k + 1) % saveFrequency = 0 ∨ k + 1 = cs.length
          · rw [if_pos hsave]
            refine ⟨_, rfl, ?_, hcok', ?_⟩
            · rw [hts', hts]
            · exact ⟨k + 1, hk, hcok', by rw [hts', hts]⟩
          · rw [if_neg hsave]
            exact ⟨_, rfl, by rw [hts', hts], hcok', hdisk⟩
        | error e =>
          right
          rw [runChunks_fail_cons hc]
          by_cases hne : st.transcriptions ≠ []
          · rw [if_pos hne]
            exact ⟨_, rfl, ⟨k, Nat.le_of_lt hk, hcok, by rw [hts]⟩⟩
          · rw [if_neg hne]
            exact ⟨_, rfl, hdisk⟩
      · right
        refine ⟨st, ?_, hdisk⟩
        rw [hmid, herr]

/-- C3: at every moment of a fresh `transcribe_chunks` run (after any
number of loop iterations, hence at any time before full success), the
partial-checkpoint file, when present, holds exactly the space-joined
texts of a gap-free prefix of the chunks in index order together with
its progress marker; in particular, with `save_frequency = 10` and a
failure injected at chunk index 23 of 30, the run raises with the
checkpoint holding exactly the texts of chunks 0–22 and the marker
23/30. -/
theorem c3_checkpoint_gapfree_prefix :
    (∀ (cs : List NetOutcome) (k : Nat), DiskOk cs (diskAfter cs k)) ∧
    (∃ st, transcribe_chunks setOrderFirst
      (((List.range 23).map (fun n => (⟨"c" ++ toString n, "en"⟩ : TranscriptionResult))).map
          okResp ++ .netError "timeout" :: List.replicate 6 (okResp ⟨"x", "en"⟩)) none =
      .error st ∧
      st.disk = some ⟨23, 30,
        String.intercalate " " ((List.range 23).map (fun n => "c" ++ toString n))⟩) := by
  constructor
  · intro cs k
    unfold diskAfter
    rcases midState_spec cs k with ⟨st, hok, -, -, hdisk⟩ | ⟨st, herr, hdisk⟩
    · rw [hok]; exact hdisk
    · rw [herr]; exact hdisk
  · obtain ⟨st, h1, h2, -⟩ := transcribe_chunks_failAfter setOrderFirst
      ((List.range 23).map (fun n => (⟨"c" ++ toString n, "en"⟩ : TranscriptionResult)))
      (.netError "timeout") "timeout" rfl (by decide)
      (List.replicate 6 (okResp ⟨"x", "en"⟩)) none
    refine ⟨st, h1, ?_⟩
    rw [h2]
    simp only [List.length_append, List.length_map, List.length_range, List.length_cons,
      List.length_replicate, List.map_map]
    rfl

/-- C2 (counterexample): a 200 response whose body is not valid JSON is
a normal per-chunk success (empty text, language `"unknown"`) rather
than a failure, and a per-chunk failure at index 0 re-raises without
writing any checkpoint (the write is guarded by
`if transcriptions:`). -/
theorem c2_failure_checkpoint_counterexample :
    transcribe_chunk_with_requests (.resp 200 none "not json") = .ok ⟨"", "unknown"⟩ ∧
    transcribe_chunks setOrderFirst [.netError "timeout"] none =
      .error ⟨[], [], none, 1, 0⟩ :=
  ⟨rfl, by decide⟩

/-- C2 (amended): a 200 response with a malformed body yields a normal
per-chunk success with empty text and language `"unknown"`; and when
the chunk at index `i` fails (transport error or non-200 status) after
`i > 0` completed chunks, `transcribe_chunks` writes the checkpoint
holding the texts of chunks `0..i-1` labelled `i/N` and then re-raises
(when `i = 0` it re-raises without writing). -/
theorem c2_failure_writes_checkpoint_then_raises :
    (∀ raw, transcribe_chunk_with_requests (.resp 200 none raw) = .ok ⟨"", "unknown"⟩) ∧
    (∀ (o : List String → List String) (pre : List TranscriptionResult)
      (bad : NetOutcome) (e : String),
      transcribe_chunk_with_requests bad = .error e → pre ≠ [] →
      ∀ (rest : List NetOutcome) (d0 : Option Checkpoint),
      ∃ st, transcribe_chunks o (pre.map okResp ++ bad :: rest) d0 = .error st ∧
        st.disk = some ⟨pre.length, (pre.map okResp ++ bad :: rest).length,
          String.intercalate " " (pre.map (·.text))⟩ ∧
        st.transcriptions = pre.map (·.text)) :=
  ⟨fun _ => rfl, fun o pre bad e hbad hpre rest d0 =>
    transcribe_chunks_failAfter o pre bad e hbad hpre rest d0⟩

/-- C2 (witness): the amended failure path applied at one completed
chunk followed by a transport error. -/
theorem c2_failure_writes_checkpoint_witness :
    ∃ st, transcribe_chunks setOrderFirst
      [okResp ⟨"a", "en"⟩, .netError "boom"] none = .error st ∧
      st.disk = some ⟨1, 2, "a"⟩ ∧ st.transcriptions = ["a"] := by
  have h := c2_failure_writes_checkpoint_then_raises.2 setOrderFirst [⟨"a", "en"⟩]
    (.netError "boom") "boom" rfl (by decide) [] none
  simpa using h

theorem numChunks_zero (L : Nat) (hL : 0 < L) : numChunks 0 L = 0 := by
  unfold numChunks
  exact Nat.div_eq_of_lt (by omega)

theorem numChunks_succ {D L : Nat} (hD : 0 < D) (hL : 0 < L) :
    numChunks D L = numChunks (D - L) L + 1 := by
  unfold numChunks
  rcases Nat.le_total D L with h | h
  · have h1 : D + L - 1 = (D - 1) + L := by omega
    have h2 : D - L = 0 := by omega
    rw [h1, h2, Nat.add_div_right _ hL]
    have h3 : (D - 1) / L = 0 := Nat.div_eq_of_lt (by omega)
    have h4 : (0 + L - 1) / L = 0 := Nat.div_eq_of_lt (by omega)
    omega
  · have h1 : D + L - 1 = ((D - L) + L - 1) + L := by omega
    rw [h1, Nat.add_div_right _ hL]

/-- Peeling the first chunk: the first window has length `min L D` and
the remaining windows are the windows of the remaining audio. -/
theorem chunk_audio_lens_cons {D L : Nat} (hD : 0 < D) (hL : 0 < L) :
    chunk_audio_lens D L = min L D :: chunk_audio_lens (D - L) L := by
  unfold chunk_audio_lens
  rw [numChunks_succ hD hL, List.range_succ_eq_map, List.map_cons, List.map_map]
  congr 1
  · simp [winLen]
  · apply List.map_congr_left
    intro j hj
    simp only [Function.comp_apply, winLen]
    congr 1
    rw [Nat.succ_mul, ← Nat.sub_sub, Nat.sub_right_comm]

/-- No data loss or duplication: the chunk durations sum to the source
duration exactly. -/
theorem chunk_audio_lens_sum (L : Nat) (hL : 0 < L) (D : Nat) :
    (chunk_audio_lens D L).sum = D := by
  induction D using Nat.strong_induction_on with
  | _ D ih =>
    rcases Nat.eq_zero_or_pos D with rfl | hD
    · rw [chunk_audio_lens, numChunks_zero L hL]
      rfl
    · rw [chunk_audio_lens_cons hD hL, List.sum_cons, ih (D - L) (by omega)]
      omega

/-- The last chunk's duration is `D mod L`, or `L` when `L` divides
`D`. -/
theorem chunk_audio_lens_last (L : Nat) (hL : 0 < L) (D : Nat) (hD : 0 < D) :
    (chunk_audio_lens D L).getLast? = some (if D % L = 0 then L else D % L) := by
  induction D using Nat.strong_induction_on with
  | _ D ih =>
    rw [chunk_audio_lens_cons hD hL]
    by_cases hDL : D ≤ L
    · have h0 : chunk_audio_lens (D - L) L = [] := by
        have h00 : D - L = 0 := by omega
        rw [h00, chunk_audio_lens, numChunks_zero L hL]
        rfl
      rw [h0]
      by_cases hmod : D % L = 0
      · have hDeq : D = L :=
          Nat.le_antisymm hDL (Nat.le_of_dvd hD (Nat.dvd_of_mod_eq_zero hmod))
        rw [if_pos hmod, hDeq, Nat.min_self]
        rfl
      · have hlt : D < L := by
          rcases Nat.lt_or_ge D L with h | h
          · exact h
          · rw [Nat.le_antisymm hDL h] at hmod
            exact absurd (Nat.mod_self L) hmod
        rw [if_neg hmod, Nat.mod_eq_of_lt hlt, Nat.min_eq_right (Nat.le_of_lt hlt)]
        rfl
    · push_neg at hDL
      have hrec := ih (D - L) (by omega) (by omega)
      have hmodeq : D % L = (D - L) % L := by
        conv_lhs => rw [← Nat.sub_add_cancel (Nat.le_of_lt hDL)]
        rw [Nat.add_mod_right]
      cases htail : chunk_audio_lens (D - L) L with
      | nil => rw [htail] at hrec; cases hrec
      | cons b l =>
        rw [htail] at hrec
        rw [List.getLast?_cons_cons, hrec, hmodeq]

/-- Every source instant lies in exactly one chunk window. -/
theorem chunk_windows_cover {D L : Nat} (hL : 0 < L) {t : Nat} (ht : t < D) :
    ∃! j, j < numChunks D L ∧ j * L ≤ t ∧ t < j * L + winLen D L j := by
  have hmod : t / L * L + t % L = t := Nat.div_add_mod' t L
  have hmlt : t % L < L := Nat.mod_lt t hL
  refine ⟨t / L, ⟨?_, ?_, ?_⟩, ?_⟩
  · have h1 : t / L ≤ (D - 1) / L := Nat.div_le_div_right (by omega)
    have h2 : (D - 1) / L < (D + L - 1) / L := by
      have h3 : D + L - 1 = (D - 1) + L := by omega
      rw [h3, Nat.add_div_right _ hL]
      omega
    unfold numChunks
    omega
  · exact Nat.div_mul_le_self t L
  · unfold winLen
    rcases Nat.le_total L (D - t / L * L) with h | h
    · rw [Nat.min_eq_left h]
      omega
    · rw [Nat.min_eq_right h]
      omega
  · rintro j ⟨hj, h1, h2⟩
    have h3 : t < j * L + L := by
      have h4 : winLen D L j ≤ L := Nat.min_le_left _ _
      omega
    exact (Nat.div_eq_of_lt_le h1 (by rw [Nat.succ_mul]; omega)).symm

/-- C7: for every source duration `D` and every positive chunk length
`L` (the sizing formula's output is positive whenever chunking proceeds;
a zero length would make Python's `range` raise before producing any
chunk), the windows `[0,L), [L,2L), ...` cover `[0,D)` with each instant
in exactly one window, the chunk durations sum to `D` exactly, and the
final window's length is `D mod L` (or `L` when `D mod L = 0`). -/
theorem c7_chunk_coverage (D L : Nat) (hL : 0 < L) :
    (∀ t, t < D → ∃! j, j < numChunks D L ∧ j * L ≤ t ∧ t < j * L + winLen D L j) ∧
    (chunk_audio_lens D L).sum = D ∧
    (0 < D → (chunk_audio_lens D L).getLast? = some (if D % L = 0 then L else D % L)) :=
  ⟨fun _ ht => chunk_windows_cover hL ht, chunk_audio_lens_sum L hL D,
    fun hD => chunk_audio_lens_last L hL D hD⟩

/-- C7 (witness): the coverage theorem applied at a 10 ms source with
3 ms chunks. -/
theorem c7_chunk_coverage_witness :
    (∀ t, t < 10 → ∃! j, j < numChunks 10 3 ∧ j * 3 ≤ t ∧ t < j * 3 + winLen 10 3 j) ∧
    (chunk_audio_lens 10 3).sum = 10 ∧
    (0 < 10 → (chunk_audio_lens 10 3).getLast? = some (if 10 % 3 = 0 then 3 else 10 % 3)) :=
  c7_chunk_coverage 10 3 (by decide)

theorem natDigitsAux_small {f n : Nat} (hf : 0 < f) (h : n < 10) :
    natDigitsAux f n = [n] := by
  cases f with
  | zero => omega
  | succ f => rw [natDigitsAux, if_pos h]

theorem natDigitsAux_step {f n : Nat} (hf : 0 < f) (h : 10 ≤ n) :
    natDigitsAux f n = natDigitsAux (f - 1) (n / 10) ++ [n % 10] := by
  cases f with
  | zero => omega
  | succ f => rw [natDigitsAux, if_neg (by omega), Nat.add_sub_cancel]

/-- For `n < 1000`, the `%03d` rendering is exactly the three digit
characters of `n` (hundreds, tens, units). -/
theorem format03dChars_eq {n : Nat} (h : n < 1000) :
    format03dChars n = [Nat.digitChar (n / 100), Nat.digitChar (n / 10 % 10),
      Nat.digitChar (n % 10)] := by
  unfold format03dChars natDigits
  rcases Nat.lt_or_ge n 10 with h1 | h1
  · rw [natDigitsAux_small (by omega) h1]
    have e1 : n / 100 = 0 := by omega
    have e2 : n / 10 % 10 = 0 := by omega
    have e3 : n % 10 = n := by omega
    rw [e1, e2, e3]
    rfl
  · rw [natDigitsAux_step (by omega) h1, Nat.add_sub_cancel]
    rcases Nat.lt_or_ge n 100 with h2 | h2
    · rw [natDigitsAux_small (by omega) (show n / 10 < 10 by omega)]
      have e1 : n / 100 = 0 := by omega
      have e2 : n / 10 % 10 = n / 10 := by omega
      rw [e1, e2]
      rfl
    · rw [natDigitsAux_step (by omega) (show 10 ≤ n / 10 by omega)]
      rw [natDigitsAux_small (by omega) (show n / 10 / 10 < 10 by omega)]
      have e1 : n / 10 / 10 = n / 100 := by omega
      rw [e1]
      rfl

theorem digitChar_mono : ∀ b < 10, ∀ a < b, Nat.digitChar a < Nat.digitChar b := by decide

/-- Lexicographic comparison of two width-3 digit renderings agrees
with numeric comparison, whatever follows the digits. -/
theorem digits3_lt {a b c d e f : Nat} (hd : d ≤ 9) (he : e ≤ 9) (hf : f ≤ 9)
    (h : 100 * a + 10 * b + c < 100 * d + 10 * e + f) (r₁ r₂ : List Char) :
    Nat.digitChar a :: Nat.digitChar b :: Nat.digitChar c :: r₁ <
      Nat.digitChar d :: Nat.digitChar e :: Nat.digitChar f :: r₂ := by
  rcases Nat.lt_trichotomy a d with h1 | h1 | h1
  · exact List.Lex.rel (digitChar_mono d (by omega) a h1)
  · subst h1
    rcases Nat.lt_trichotomy b e with h2 | h2 | h2
    · exact List.Lex.cons (List.Lex.rel (digitChar_mono e (by omega) b h2))
    · subst h2
      exact List.Lex.cons (List.Lex.cons
        (List.Lex.rel (digitChar_mono f (by omega) c (by omega))))
    · omega
  · omega

/-- C8 (counterexample): the zero-padded naming only guarantees
lexicographic = numeric ordering up to three digits.  At one thousand
chunks the property fails: index 999 precedes index 1000, but
`chunk_1000.wav` sorts lexicographically before `chunk_999.wav`. -/
theorem c8_lex_order_fails_at_1000 :
    999 < 1000 ∧ chunk_filename 1000 < chunk_filename 999 ∧
      ¬ chunk_filename 999 < chunk_filename 1000 :=
  ⟨by omega, String.lt_iff_toList_lt.mpr (by decide),
    fun h => absurd (String.lt_iff_toList_lt.mp h) (by decide)⟩

/-- C8 (amended): for chunk indices below 1000 (where `%03d` pads all
names to the same three-digit width), lexicographic order of the chunk
file names coincides with numeric index order. -/
theorem c8_filenames_lex_ordered (i j : Nat) (hij : i < j) (hj : j < 1000) :
    chunk_filename i < chunk_filename j := by
  have hdata : ∀ n, n < 1000 → (chunk_filename n).data =
      'c' :: 'h' :: 'u' :: 'n' :: 'k' :: '_' ::
        Nat.digitChar (n / 100) :: Nat.digitChar (n / 10 % 10) :: Nat.digitChar (n % 10) ::
        ['.', 'w', 'a', 'v'] := by
    intro n hn
    show ("chunk_" ++ String.mk (format03dChars n) ++ ".wav").data = _
    rw [String.data_append, String.data_append,
      show (String.mk (format03dChars n)).data = format03dChars n from rfl,
      format03dChars_eq hn]
    rfl
  have hlt : (chunk_filename i).data < (chunk_filename j).data := by
    rw [hdata i (by omega), hdata j hj]
    refine List.Lex.cons (List.Lex.cons (List.Lex.cons (List.Lex.cons
      (List.Lex.cons (List.Lex.cons ?_)))))
    exact digits3_lt (by omega) (by omega) (by omega) (by omega) _ _
  exact String.lt_iff_toList_lt.mpr hlt

/-- C8 (witness): instantiating the amended ordering theorem at indices
7 < 42. -/
theorem c8_filenames_lex_ordered_witness : chunk_filename 7 < chunk_filename 42 :=
  c8_filenames_lex_ordered 7 42 (by omega) (by omega)

theorem isSafeChar_replaceUnsafe (c : Char) : isSafeChar (replaceUnsafe c) = true := by
  unfold replaceUnsafe
  by_cases h : isSafeChar c
  · rw [if_pos h]; exact h
  · rw [if_neg h]; rfl

theorem mem_collapseHyphens {c : Char} : ∀ {b : Bool} {l : List Char},
    c ∈ collapseHyphens b l → c ∈ l := by
  intro b l
  induction l generalizing b with
  | nil => intro h; cases h
  | cons x rest ih =>
    intro h
    rw [collapseHyphens] at h
    by_cases hx : x = '-'
    · rw [if_pos hx] at h
      cases b with
      | true => exact List.mem_cons_of_mem x (ih h)
      | false =>
        rcases List.mem_cons.mp h with rfl | h
        · rw [hx]; exact List.mem_cons_self _ _
        · exact List.mem_cons_of_mem x (ih h)
    · rw [if_neg hx] at h
      rcases List.mem_cons.mp h with rfl | h
      · exact List.mem_cons_self _ _
      · exact List.mem_cons_of_mem x (ih h)

theorem mem_stripHyphens {c : Char} {l : List Char} (h : c ∈ stripHyphens l) : c ∈ l := by
  unfold stripHyphens at h
  rw [List.mem_reverse] at h
  have h1 := (List.dropWhile_sublist (l := (l.dropWhile (fun c => c == '-')).reverse)
    (p := fun c => c == '-')).subset h
  rw [List.mem_reverse] at h1
  exact (List.dropWhile_sublist (l := l) (p := fun c => c == '-')).subset h1

/-- C9: `sanitize_filename` rejects (raises on) any name containing
`".."`, `"/"` or `"\\"`; on any other input it returns a non-empty
name of at most 100 characters drawn entirely from the safe class
`[a-z0-9_-]`; and concretely `"My Video! (final).mp4"` becomes the
lowercase hyphenated token `"my-video-final"`. -/
theorem c9_sanitize_filename (filename : String) :
    ((containsDotDot filename.data || filename.data.contains '/' ||
        filename.data.contains '\\') = true → sanitize_filename filename = none) ∧
    ((containsDotDot filename.data || filename.data.contains '/' ||
        filename.data.contains '\\') = false →
      ∃ out, sanitize_filename filename = some out ∧ out.data ≠ [] ∧
        out.data.length ≤ 100 ∧ ∀ c ∈ out.data, isSafeChar c = true) ∧
    sanitize_filename "My Video! (final).mp4" = some "my-video-final" ∧
    sanitize_filename "../etc/passwd" = none := by
  refine ⟨?_, ?_, by decide, by decide⟩
  · intro h
    unfold sanitize_filename
    rw [if_pos h]
  · intro h
    unfold sanitize_filename
    rw [if_neg (by rw [h]; exact Bool.false_ne_true)]
    set core := stripHyphens (collapseHyphens false
      ((splitextRoot filename.data).map asciiLower |>.map replaceUnsafe)) with hcore
    refine ⟨_, rfl, ?_, ?_, ?_⟩
    · by_cases hc : core = []
      · rw [if_pos hc]
        decide
      · rw [if_neg hc]
        intro htake
        rcases List.take_eq_nil_iff.mp htake with h100 | hnil
        · cases h100
        · exact hc hnil
    · by_cases hc : core = []
      · rw [if_pos hc]
        decide
      · rw [if_neg hc]
        simp only [List.length_take]
        exact Nat.min_le_left 100 core.length
    · intro c hc
      have hmem := List.take_subset _ _ hc
      by_cases hcore0 : core = []
      · rw [if_pos hcore0] at hmem
        exact (by decide : ∀ x ∈ "unnamed".data, isSafeChar x = true) c hmem
      · rw [if_neg hcore0] at hmem
        have h1 := mem_stripHyphens hmem
        have h2 := mem_collapseHyphens h1
        obtain ⟨x, -, rfl⟩ := List.mem_map.mp h2
        exact isSafeChar_replaceUnsafe x

/-- C9 (witness): the sanitize theorem applied to a clean concrete
filename, with its rejection test discharged. -/
theorem c9_sanitize_filename_witness :
    ∃ out, sanitize_filename "Lecture 01.mp4" = some out ∧ out.data ≠ [] ∧
      out.data.length ≤ 100 ∧ ∀ c ∈ out.data, isSafeChar c = true :=
  (c9_sanitize_filename "Lecture 01.mp4").2.1 (by decide)

/-- Whatever `secure_path_join` returns passed the base-containment
check — the lexical half of the claimed guarantee, by construction. -/
theorem secure_path_join_under (cwd base : PyPath) (parts : List PyPath) (req : PyPath)
    (h : secure_path_join cwd base parts = some req) :
    underBase (abspath cwd base) req = true := by
  unfold secure_path_join at h
  by_cases hc : underBase (abspath cwd base)
      (abspath cwd (osJoin (abspath cwd base) parts)) = true
  · rw [if_pos hc] at h
    rw [← Option.some.inj h]
    exact hc
  · rw [if_neg hc] at h
    cases h

/-- C6 (code_bug, evaluated at the failing input): with working
directory `/`, base `/base` and the single part `"link/passwd"`,
`secure_path_join` returns `/base/link/passwd` without raising; if
`/base/link` is a symlink to `/etc`, that path physically resolves to
`/etc/passwd`, which fails the very containment test the function
enforces — so a symlink escape is not detected, contradicting the
code's own comment (`# Resolve to absolute path (handles .. and
symlinks)`) and the spec, because `os.path.abspath` normalises
textually and never resolves symlinks.  The last two conjuncts record
that the lexical defenses do work: `..` traversal raises, and a plain
relative join stays under the base. -/
theorem c6_symlink_escape_code_bug :
    secure_path_join ⟨true, []⟩ ⟨true, ["base"]⟩ [⟨false, ["link", "passwd"]⟩] =
      some ⟨true, ["base", "link", "passwd"]⟩ ∧
    resolveOneLink ["base", "link"] ["etc"] ["base", "link", "passwd"] = ["etc", "passwd"] ∧
    underBase ⟨true, ["base"]⟩ ⟨true, ["etc", "passwd"]⟩ = false ∧
    secure_path_join ⟨true, []⟩ ⟨true, ["base"]⟩ [⟨false, ["..", "..", "etc", "passwd"]⟩] =
      none ∧
    secure_path_join ⟨true, []⟩ ⟨true, ["base"]⟩ [⟨false, ["a", "b"]⟩] =
      some ⟨true, ["base", "a", "b"]⟩ := by
  refine ⟨?_, ?_, ?_, ?_, ?_⟩ <;> rfl

end BatchTranscribe
